import Mathlib

/-!
# Array-sum benchmark (`src/main_sum.cpp`)

A shallow embedding of the benchmark driver: the input set-up, the sequential
CPU loop, the OpenMP reduction, `raiseFail`, `runGpuKernel` and `main`.

Conventions.
* An `unsigned int` is a natural number below `2 ^ 32`; `+=` on it is `addU32`.
* An `int` loop counter that only counts up from `0` is a natural number; the
  increment of `INT_MAX` is undefined behaviour and is reported as
  `Fault.signed_overflow`.
* A C++ exception is `Fault.runtime_error`; code that may throw returns an
  `Outcome`, the state of the world together with `Except Fault Unit`.
* Console timing output (`timer`, `lapAvg`, `lapStd`) is not part of the model.
-/

namespace MainSum

/-! ## Machine arithmetic -/

/-- Largest value of `int`. -/
def INT_MAX : Nat := 2 ^ 31 - 1

/-- The value `std::numeric_limits<unsigned int>::max()`. -/
def UINT_MAX : Nat := 2 ^ 32 - 1

/-- Addition of two `unsigned int` values (`sum += x`). -/
def addU32 (a b : Nat) : Nat := (a + b) % 2 ^ 32

/-- The conversion `(unsigned int) x` of an integral value. -/
def toU32 (x : Int) : Nat := (x % 2 ^ 32).toNat

/-- What can stop a computation: the `std::runtime_error` thrown by
`raiseFail`, or the undefined increment of an `int` holding `INT_MAX`. -/
inductive Fault where
  | runtime_error (message : String)
  | signed_overflow
deriving DecidableEq, Repr

/-- The loop `for (int i = 0; i < n; ++i) body` with `n` an `unsigned int`,
started at counter value `i` with loop state `acc`. The comparison converts the
non-negative `i` to `unsigned int`, which leaves its value unchanged. -/
def forInt {α : Type} (n : Nat) (body : Nat → α → α) (i : Nat) (acc : α) : Except Fault α :=
  if i < n then
    if i < INT_MAX then forInt n body (i + 1) (body i acc)
    else .error .signed_overflow
  else .ok acc
termination_by INT_MAX - i
decreasing_by omega

/-! ## Input set-up (`main`, lines 63-72) -/

/-- Loop state of the set-up loop: the vector `as`, the generator `r` and
`reference_sum`. -/
structure Setup (σ : Type) where
  as : List Nat
  r : σ
  reference_sum : Nat

/-- Body of the set-up loop: `as[i] = (unsigned int) r.next(0, UINT_MAX / n);
reference_sum += as[i];`. The generator `FastRandom::next` is a parameter: it
maps the generator state and the two bounds to the drawn value and the next
state. -/
def setupBody {σ : Type} (next : σ → Nat → Nat → Int × σ) (n : Nat) (i : Nat)
    (s : Setup σ) : Setup σ :=
  let drawn := next s.r 0 (UINT_MAX / n)
  let as := s.as.set i (toU32 drawn.1)
  { as := as, r := drawn.2, reference_sum := addU32 s.reference_sum (as.getD i 0) }

/-- The set-up: `reference_sum = 0; std::vector<unsigned int> as(n, 0);
FastRandom r(seed); for (int i = 0; i < n; ++i) ...`. -/
def setup {σ : Type} (next : σ → Nat → Nat → Int × σ) (seed : σ) (n : Nat) :
    Except Fault (Setup σ) :=
  forInt n (setupBody next n) 0 { as := List.replicate n 0, r := seed, reference_sum := 0 }

/-! ## Sequential CPU sum (`main`, lines 78-81) -/

/-- The inner loop `unsigned int sum = 0; for (int i = 0; i < n; ++i) sum += as[i];`. -/
def cpuSum (as : List Nat) (n : Nat) : Except Fault Nat :=
  forInt n (fun i sum => addU32 sum (as.getD i 0)) 0 0

/-! ## OpenMP reduction (`main`, lines 95-99) -/

/-- How one execution of `#pragma omp parallel for reduction(+:sum)` divides
the iterations `0 .. n-1`: thread `t` runs the `sizes[t]` consecutive
iterations that follow those of the threads before it, and the private sums
are combined into `sum` in the order `order`, which lists every thread once. -/
structure Schedule (n : Nat) where
  sizes : List Nat
  order : List Nat
  covers : sizes.sum = n
  each_once : order.Perm (List.range sizes.length)

/-- Private sum of one thread: its copy of `sum` starts at `0` and receives
`as[i]` for the `len` iterations starting at `lo`. -/
def chunkSum (as : List Nat) (lo len : Nat) : Nat :=
  (List.range len).foldl (fun sum j => addU32 sum (as.getD (lo + j) 0)) 0

/-- The private sums of all threads, by thread number. -/
def partialSums (as : List Nat) (sizes : List Nat) : List Nat :=
  (List.range sizes.length).map (fun t => chunkSum as (sizes.take t).sum (sizes.getD t 0))

/-- The reduction clause: the original `sum` (which is `0`) is combined with
the private sums, one thread after the other in the schedule's order. -/
def ompSum (as : List Nat) {n : Nat} (sched : Schedule n) : Nat :=
  sched.order.foldl (fun sum t => addU32 sum ((partialSums as sched.sizes).getD t 0)) 0

/-! ## The world, `raiseFail` and the benchmarking loops -/

/-- Modelled from the spec: the work-size descriptor `gpu::WorkSize` (items per
group, total work items), whose declaration is in `libgpu`. -/
structure WorkSize where
  groupSize : Nat
  workItems : Nat
deriving DecidableEq, Repr

/-- What a run leaves behind, in order. `cpu`, `omp` and `exec` record one
executed iteration of a runner (`exec` with the content of `sum_gpu` when the
kernel started and when it finished); `cerr_fail` and `cerr_what` are the lines
written to `std::cerr`; `report` stands for the two `std::cout` lines that
close a runner. -/
inductive Event where
  | cpu (sum : Nat)
  | omp (sum : Nat)
  | exec (kernel_name : String) (work_size : WorkSize) (before after : Nat)
  | cerr_fail (message : String) (a b : Nat) (line : Nat)
  | cerr_what (message : String)
  | report (name : String)
deriving DecidableEq, Repr

/-- State of the world: the one-element device buffer `sum_gpu` and the events
so far, oldest first. -/
structure World where
  sum_gpu : Nat
  trace : List Event
deriving DecidableEq, Repr

/-- Append one event to the trace. -/
def World.emit (w : World) (e : Event) : World :=
  { w with trace := w.trace ++ [e] }

/-- Result of code that may throw: the world it leaves and whether it
completed. -/
structure Outcome where
  world : World
  result : Except Fault Unit

/-- Sequencing: `k` runs only when `o` completed. -/
def Outcome.andThen (o : Outcome) (k : World → Outcome) : Outcome :=
  match o.result with
  | .ok _ => k o.world
  | .error _ => o

/-- The function `raiseFail`, reached through `EXPECT_THE_SAME(a, b, message)`
at source line `line`. -/
def raiseFail (a b : Nat) (message : String) (line : Nat) (w : World) : Outcome :=
  if a ≠ b then
    { world := w.emit (.cerr_fail message a b line), result := .error (.runtime_error message) }
  else
    { world := w, result := .ok () }

/-- The loop `for (int iter = 0; iter < benchmarkingIters; ++iter) body`,
started at counter value `iter`; an exception thrown by the body leaves the
loop. -/
def forIters (benchmarkingIters : Int) (body : Nat → World → Outcome) (iter : Nat)
    (w : World) : Outcome :=
  if (iter : Int) < benchmarkingIters then
    (body iter w).andThen (forIters benchmarkingIters body (iter + 1))
  else
    { world := w, result := .ok () }
termination_by (benchmarkingIters - iter).toNat
decreasing_by omega

/-- One iteration of the "Pure CPU" block (lines 78-83). -/
def cpuIter (as : List Nat) (n reference_sum : Nat) (_iter : Nat) (w : World) : Outcome :=
  match cpuSum as n with
  | .error f => { world := w, result := .error f }
  | .ok sum => raiseFail reference_sum sum "CPU result should be consistent!" 82 (w.emit (.cpu sum))

/-- The "Pure CPU" block (lines 75-89). -/
def cpuBlock (benchmarkingIters : Int) (as : List Nat) (n reference_sum : Nat) (w : World) :
    Outcome :=
  (forIters benchmarkingIters (cpuIter as n reference_sum) 0 w).andThen
    fun w => { world := w.emit (.report "CPU"), result := .ok () }

/-- One iteration of the "CPU with OpenMP" block (lines 95-101). -/
def ompIter (sched : Nat → Schedule n) (as : List Nat) (reference_sum : Nat) (iter : Nat)
    (w : World) : Outcome :=
  let sum := ompSum as (sched iter)
  raiseFail reference_sum sum "CPU OpenMP result should be consistent!" 100 (w.emit (.omp sum))

/-- The "CPU with OpenMP" block (lines 92-107). -/
def ompBlock (benchmarkingIters : Int) (sched : Nat → Schedule n) (as : List Nat)
    (reference_sum : Nat) (w : World) : Outcome :=
  (forIters benchmarkingIters (ompIter sched as reference_sum) 0 w).andThen
    fun w => { world := w.emit (.report "CPU OMP"), result := .ok () }

/-- The device: what `kernel.exec(work_size, as_gpu, sum_gpu, n)` leaves in
`sum_gpu`, given the kernel's name, the work size, the number of earlier
executions of this kernel object (so that a kernel may answer differently each
time), the content of `as_gpu`, the content of `sum_gpu` at the start, and `n`. -/
abbrev Device := String → WorkSize → Nat → List Nat → Nat → Nat → Nat

/-- One iteration of the loop of `runGpuKernel` (lines 40-52). -/
def gpuIter (device : Device) (kernel_name : String) (work_size : WorkSize) (as_gpu : List Nat)
    (n reference_sum : Nat) (iter : Nat) (w : World) : Outcome :=
  let sum := 0
  let w1 : World := { w with sum_gpu := sum }
  let after := device kernel_name work_size iter as_gpu w1.sum_gpu n
  let w2 : World :=
    { sum_gpu := after, trace := w1.trace ++ [.exec kernel_name work_size w1.sum_gpu after] }
  let sum := w2.sum_gpu
  raiseFail reference_sum sum "GPU result should be consistent!" 51 w2

/-- The function `runGpuKernel` (lines 25-58). Creating and compiling the
kernel (lines 35-36) is taken to succeed; the only exception is the one of
`raiseFail`. -/
def runGpuKernel (device : Device) (benchmarkingIters : Int) (kernel_name : String)
    (work_size : WorkSize) (as_gpu : List Nat) (n reference_sum : Nat) (w : World) : Outcome :=
  (forIters benchmarkingIters (gpuIter device kernel_name work_size as_gpu n reference_sum) 0
      w).andThen
    fun w => { world := w.emit (.report ("GPU <" ++ kernel_name ++ ">")), result := .ok () }

/-! ## `main` -/

/-- The five kernel launches of `main` (lines 125-138), in order: kernel name
and work size for an array of `n` elements. -/
def launches (n : Nat) : List (String × WorkSize) :=
  [ ("sum_gpu_global_atomic", ⟨128, n⟩),
    ("sum_gpu_cycle", ⟨128, n / 64⟩),
    ("sum_gpu_coalesed_cycle", ⟨128, n / 64⟩),
    ("sum_gpu_local", ⟨128, n⟩),
    ("sum_gpu_tree", ⟨128, n⟩) ]

/-- Everything `main` takes from outside this file: the generator
`FastRandom` (its `next` and its state after seeding with 42), the OpenMP
schedule of each iteration, the device, and the content of `sum_gpu` right
after `resizeN(1)`. -/
structure Env (σ : Type) (n : Nat) where
  next : σ → Nat → Nat → Int × σ
  seed : σ
  sched : Nat → Schedule n
  device : Device
  sum_gpu0 : Nat

/-- The device block of `main` (lines 109-139): `as_gpu` receives `as`, then
the five kernels run one after the other. Choosing the device, creating the
context and allocating and filling the buffers are taken to succeed. -/
def gpuBlock (device : Device) (benchmarkingIters : Int) (as : List Nat) (n reference_sum : Nat)
    (w : World) : Outcome :=
  let as_gpu := as
  (launches n).foldl
    (fun o l => o.andThen (runGpuKernel device benchmarkingIters l.1 l.2 as_gpu n reference_sum))
    { world := w, result := .ok () }

/-- The `try` block of `main` (lines 62-140) for given `benchmarkingIters` and
`n`. -/
def mainTry {σ : Type} (benchmarkingIters : Int) (n : Nat) (env : Env σ n) : Outcome :=
  match setup env.next env.seed n with
  | .error f => { world := ⟨env.sum_gpu0, []⟩, result := .error f }
  | .ok s =>
    ((cpuBlock benchmarkingIters s.as n s.reference_sum ⟨env.sum_gpu0, []⟩).andThen
      (ompBlock benchmarkingIters env.sched s.as s.reference_sum)).andThen
      (gpuBlock env.device benchmarkingIters s.as n s.reference_sum)

/-- The handler `catch (const std::exception& err)` (lines 141-144): it prints
`err.what()` and rethrows. -/
def catchHandler (o : Outcome) : Outcome :=
  match o.result with
  | .error (.runtime_error message) =>
    { world := o.world.emit (.cerr_what message), result := .error (.runtime_error message) }
  | _ => o

/-- The function `main` with its two constants as parameters. -/
def mainWith {σ : Type} (benchmarkingIters : Int) (n : Nat) (env : Env σ n) : Outcome :=
  catchHandler (mainTry benchmarkingIters n env)

/-- The value of `n` in `main` (line 66). -/
def n_main : Nat := 100 * 1000 * 1000

/-- The function `main`: `benchmarkingIters = 10`, `n = 100*1000*1000`. -/
def main {σ : Type} (env : Env σ n_main) : Outcome :=
  mainWith 10 n_main env

/-- Whether the process ends with exit status zero: `main` returned. An
exception that leaves `main` ends the process through `std::terminate`. -/
def exitsZero (o : Outcome) : Bool :=
  match o.result with
  | .ok _ => true
  | .error _ => false

/-! ## Vocabulary of the statements -/

/-- Exact sum of the `len` elements of `as` from index `lo` on. -/
def sliceSum (as : List Nat) (lo len : Nat) : Nat :=
  ((List.range len).map (fun j => as.getD (lo + j) 0)).sum

/-- The sum that iteration `k` of `runGpuKernel` reads back: what the `k`-th
execution of the kernel leaves in `sum_gpu` when started on `0`. -/
def readback (device : Device) (kernel_name : String) (work_size : WorkSize) (as_gpu : List Nat)
    (n : Nat) (k : Nat) : Nat :=
  device kernel_name work_size k as_gpu 0 n

/-- The `exec` events of the iterations `0 .. m-1` of one `runGpuKernel` call. -/
def execEvents (device : Device) (kernel_name : String) (work_size : WorkSize)
    (as_gpu : List Nat) (n : Nat) (m : Nat) : List Event :=
  (List.range m).map
    (fun j => .exec kernel_name work_size 0 (readback device kernel_name work_size as_gpu n j))

/-- Trace of a `runGpuKernel` call whose `m` iterations all pass the check. -/
def passedRun (device : Device) (m : Nat) (as_gpu : List Nat) (n : Nat)
    (l : String × WorkSize) : List Event :=
  execEvents device l.1 l.2 as_gpu n m ++ [.report ("GPU <" ++ l.1 ++ ">")]

/-- Trace of a `runGpuKernel` call that raises in iteration `k`. -/
def failedRun (device : Device) (k : Nat) (as_gpu : List Nat) (n reference_sum : Nat)
    (l : String × WorkSize) : List Event :=
  execEvents device l.1 l.2 as_gpu n (k + 1) ++
    [.cerr_fail "GPU result should be consistent!" reference_sum
      (readback device l.1 l.2 as_gpu n k) 51]

/-- Trace of the two host blocks when each of their `m` iterations passes. -/
def hostTrace (m : Nat) (reference_sum : Nat) : List Event :=
  List.replicate m (.cpu reference_sum) ++ [.report "CPU"] ++
    List.replicate m (.omp reference_sum) ++ [.report "CPU OMP"]

/-- The world after an iteration of `runGpuKernel` that passes the check. -/
def gpuStep (device : Device) (kernel_name : String) (work_size : WorkSize) (as_gpu : List Nat)
    (n : Nat) (j : Nat) (w : World) : World :=
  { sum_gpu := readback device kernel_name work_size as_gpu n j,
    trace := w.trace ++
      [.exec kernel_name work_size 0 (readback device kernel_name work_size as_gpu n j)] }

/-! ## The five reduction strategies

The kernels (`cl/sum.cl`) are not part of `src/`; they are modelled from §4.3
and §5 of the specification. A worker's private work and the work of a group
between barriers are deterministic; workers interact only through the atomic
additions to the output scalar. An interleaving of the workers is therefore
represented by the order in which these atomic additions reach the output. -/

/-- Modelled from the spec: the five reduction strategies of §4.3, whose
kernels (`cl/sum.cl`) are not under `src/`. -/
inductive Strategy where
  | global_atomic
  | cycle
  | coalesced_cycle
  | local_buffer
  | tree
deriving DecidableEq, Repr

/-- Name of the kernel that `main` launches for a strategy. -/
def Strategy.kernel_name : Strategy → String
  | .global_atomic => "sum_gpu_global_atomic"
  | .cycle => "sum_gpu_cycle"
  | .coalesced_cycle => "sum_gpu_coalesed_cycle"
  | .local_buffer => "sum_gpu_local"
  | .tree => "sum_gpu_tree"

/-- Work size that `main` passes for a strategy (lines 126-138). -/
def Strategy.work_size (n : Nat) : Strategy → WorkSize
  | .global_atomic => ⟨128, n⟩
  | .cycle => ⟨128, n / 64⟩
  | .coalesced_cycle => ⟨128, n / 64⟩
  | .local_buffer => ⟨128, n⟩
  | .tree => ⟨128, n⟩

/-- The grouping factor of the two cycle strategies: the divisor in the worker
count `n / 64` of `main`. -/
def groupingFactor : Nat := 64

/-- Modelled from the spec: the array index that worker `g` of `workers` reads
in step `i` of a cycle kernel (kernel source not under `src/`). Strided cycle
(§4.3.2): a run of consecutive elements per worker. Coalesced cycle (§4.3.3):
in each step all workers together read one contiguous stretch. -/
def readIndex (s : Strategy) (workers g i : Nat) : Nat :=
  match s with
  | .coalesced_cycle => i * workers + g
  | _ => g * groupingFactor + i

/-- Modelled from the spec: the private sum of worker `g` of a cycle kernel
(kernel source not under `src/`), accumulated over `groupingFactor` steps
(§4.3.2, §4.3.3). -/
def workerSum (s : Strategy) (workers : Nat) (as : List Nat) (g : Nat) : Nat :=
  (List.range groupingFactor).foldl
    (fun res i => addU32 res (as.getD (readIndex s workers g i) 0)) 0

/-- Modelled from the spec: number of work groups of a launch (the launch
code of `libgpu` is not under `src/`): the workers are grouped `groupSize` at a
time, the last group possibly incomplete. -/
def groupCount (ws : WorkSize) : Nat :=
  (ws.workItems + ws.groupSize - 1) / ws.groupSize

/-- Modelled from the spec: the scratch buffer of group `w` after the load
step of the local-buffer and tree kernels (§4.3.4; kernel source not under
`src/`): one slot per worker of the group, holding the worker's array element.
The spec does not say what a slot without an array element holds; it is taken
to hold `0`. -/
def groupBuffer (ws : WorkSize) (as : List Nat) (n w : Nat) : List Nat :=
  (List.range ws.groupSize).map fun lid =>
    let gid := w * ws.groupSize + lid
    if gid < ws.workItems ∧ gid < n then as.getD gid 0 else 0

/-- Modelled from the spec: linear combination of the scratch buffer by the
group leader in the local-buffer kernel (§4.3.4; kernel source not under
`src/`). -/
def linearReduce (buf : List Nat) : Nat :=
  buf.foldl addU32 0

/-- Modelled from the spec: one pass of the tree kernel (§4.3.5; kernel source
not under `src/`): each of the `half` surviving workers adds the value at index
`i + half` into index `i`. The result lists the live part of the buffer. -/
def treePass (buf : List Nat) (half : Nat) : List Nat :=
  (List.range half).map fun i => addU32 (buf.getD i 0) (buf.getD (i + half) 0)

/-- Modelled from the spec: the tree kernel's reduction of a buffer with
`live` live elements (§4.3.5; kernel source not under `src/`): passes separated
by barriers, each halving the live count, until one element remains. -/
def treeReduce (live : Nat) (buf : List Nat) : Nat :=
  if 1 < live then treeReduce (live / 2) (treePass buf (live / 2))
  else buf.getD 0 0
termination_by live
decreasing_by omega

/-- Modelled from the spec: the values that the kernel of a strategy (not under
`src/`) adds atomically to the output scalar, by contributor: one per worker
for strategies 1-3, one per group (added by its leader) for strategies 4-5. -/
def contributions (s : Strategy) (ws : WorkSize) (as : List Nat) (n : Nat) : List Nat :=
  match s with
  | .global_atomic => (List.range ws.workItems).map fun gid => as.getD gid 0
  | .cycle => (List.range ws.workItems).map (workerSum .cycle ws.workItems as)
  | .coalesced_cycle => (List.range ws.workItems).map (workerSum .coalesced_cycle ws.workItems as)
  | .local_buffer => (List.range (groupCount ws)).map fun w => linearReduce (groupBuffer ws as n w)
  | .tree =>
    (List.range (groupCount ws)).map fun w => treeReduce ws.groupSize (groupBuffer ws as n w)

/-- Modelled from the spec: the content of the output scalar after the kernel
of a strategy (not under `src/`) has run with the output holding `out` at the
start, when the atomic additions reach the output in the order `order` (a list
of contributor numbers). -/
def strategyResult (s : Strategy) (ws : WorkSize) (as : List Nat) (out n : Nat)
    (order : List Nat) : Nat :=
  order.foldl (fun sum t => addU32 sum ((contributions s ws as n).getD t 0)) out

/-- An order of the atomic additions in which every contributor of the launch
appears exactly once. -/
def Interleaving (s : Strategy) (ws : WorkSize) (as : List Nat) (n : Nat)
    (order : List Nat) : Prop :=
  order.Perm (List.range (contributions s ws as n).length)

/-- Worker `g` of `workers` reads index `j` in step `i` of a cycle kernel. -/
def ReadsAt (s : Strategy) (workers j : Nat) (p : Nat × Nat) : Prop :=
  p.1 < workers ∧ p.2 < groupingFactor ∧ readIndex s workers p.1 p.2 = j

instance (s : Strategy) (workers j : Nat) (p : Nat × Nat) : Decidable (ReadsAt s workers j p) := by
  unfold ReadsAt
  infer_instance

/-- Whether an event is a kernel execution. -/
def Event.isExec : Event → Bool
  | .exec _ _ _ _ => true
  | _ => false

/-- Number of kernel executions in a trace. -/
def execCount (t : List Event) : Nat :=
  t.countP Event.isExec

/-- Number of leading array elements that the workers of a strategy read when
launched with the work size of `main`: all `n` of them, but only the
`groupingFactor * (n / groupingFactor)` first ones for the two cycle
strategies. -/
def summedPrefix (s : Strategy) (n : Nat) : Nat :=
  match s with
  | .cycle => groupingFactor * (n / groupingFactor)
  | .coalesced_cycle => groupingFactor * (n / groupingFactor)
  | _ => n

/-- What the set-up loop has established after `i` iterations; `Q` is a
property of `0` and of every drawn value. -/
structure SetupInv {σ : Type} (Q : Nat → Prop) (n i : Nat) (s : Setup σ) : Prop where
  length_eq : s.as.length = n
  ref_eq : s.reference_sum = s.as.sum % 2 ^ 32
  rest_zero : ∀ j, i ≤ j → s.as.getD j 0 = 0
  elems : ∀ j, Q (s.as.getD j 0)

/-- A small environment: the generator always draws the upper bound it is
given, OpenMP runs one thread, and the device always leaves `2 ^ 32`, which is
no `unsigned int`. -/
def stuckEnv : Env Unit 2 where
  next := fun _ _ hi => (hi, ())
  seed := ()
  sched := fun _ => ⟨[2], [0], rfl, by decide⟩
  device := fun _ _ _ _ _ _ => 2 ^ 32
  sum_gpu0 := 0

/-! # Lemmas -/

/-! ## Lemmas on the loop and on wrap-around sums -/

theorem forInt_eq_foldl {α : Type} (n : Nat) (body : Nat → α → α) (hn : n < 2 ^ 31) :
    ∀ (k i : Nat) (acc : α), i + k = n →
      forInt n body i acc = .ok ((List.range' i k).foldl (fun a j => body j a) acc) := by
  intro k
  induction k with
  | zero =>
    intro i acc h
    rw [forInt]
    have : ¬ i < n := by omega
    simp [this]
  | succ k ih =>
    intro i acc h
    rw [forInt]
    have h1 : i < n := by omega
    have h2 : i < INT_MAX := by unfold INT_MAX; omega
    simp only [h1, h2, if_true]
    rw [ih (i + 1) (body i acc) (by omega)]
    simp [List.range'_succ]

theorem forInt_ok {α : Type} (n : Nat) (body : Nat → α → α) (acc : α) (hn : n < 2 ^ 31) :
    forInt n body 0 acc = .ok ((List.range n).foldl (fun a j => body j a) acc) := by
  rw [forInt_eq_foldl n body hn n 0 acc (by omega), List.range_eq_range']

theorem foldl_addU32 (l : List Nat) (s : Nat) :
    l.foldl addU32 s % 2 ^ 32 = (s + l.sum) % 2 ^ 32 := by
  induction l generalizing s with
  | nil => simp
  | cons x xs ih =>
    simp only [List.foldl_cons, List.sum_cons]
    rw [ih]
    unfold addU32
    omega

theorem foldl_addU32_lt (l : List Nat) (s : Nat) (hs : s < 2 ^ 32) :
    l.foldl addU32 s < 2 ^ 32 := by
  induction l generalizing s with
  | nil => simpa using hs
  | cons x xs ih =>
    simp only [List.foldl_cons]
    exact ih _ (Nat.mod_lt _ (by norm_num))

theorem foldl_addU32_zero (l : List Nat) : l.foldl addU32 0 = l.sum % 2 ^ 32 := by
  have h1 := foldl_addU32 l 0
  have h2 := foldl_addU32_lt l 0 (by norm_num)
  rw [Nat.mod_eq_of_lt h2] at h1
  simpa using h1

theorem map_getD_range (as : List Nat) :
    (List.range as.length).map (fun j => as.getD j 0) = as := by
  apply List.ext_getElem
  · simp
  · intro i h1 h2
    simp [List.getD_eq_getElem?_getD, List.getElem?_eq_getElem h2]

theorem cpuSum_eq (as : List Nat) (n : Nat) (hlen : as.length = n) (hn : n < 2 ^ 31) :
    cpuSum as n = .ok (as.sum % 2 ^ 32) := by
  unfold cpuSum
  rw [forInt_ok n _ 0 hn]
  have h : (List.range n).foldl (fun a j => addU32 a (as.getD j 0)) 0
      = ((List.range n).map (fun j => as.getD j 0)).foldl addU32 0 := by
    rw [List.foldl_map]
  rw [h, ← hlen, map_getD_range, foldl_addU32_zero]

theorem sum_set_of_zero (as : List Nat) (i v : Nat) (hi : i < as.length)
    (hz : as.getD i 0 = 0) : (as.set i v).sum = as.sum + v := by
  induction as generalizing i with
  | nil => simp at hi
  | cons x xs ih =>
    cases i with
    | zero =>
      simp at hz
      simp [hz, Nat.add_comm]
    | succ i =>
      simp only [List.length_cons, Nat.add_lt_add_iff_right] at hi
      simp only [List.getD_cons_succ] at hz
      simp only [List.set_cons_succ, List.sum_cons, ih i hi hz]
      omega

theorem getD_set_self (as : List Nat) (i v : Nat) (hi : i < as.length) :
    (as.set i v).getD i 0 = v := by
  simp [List.getD_eq_getElem?_getD, hi]

theorem getD_set_other (as : List Nat) (i j v : Nat) (hij : i ≠ j) :
    (as.set i v).getD j 0 = as.getD j 0 := by
  simp [List.getD_eq_getElem?_getD, List.getElem?_set_ne hij]

theorem toU32_lt (x : Int) : toU32 x < 2 ^ 32 := by
  unfold toU32
  have h1 : (0 : Int) ≤ x % 2 ^ 32 := Int.emod_nonneg _ (by norm_num)
  have h2 : x % 2 ^ 32 < 2 ^ 32 := Int.emod_lt_of_pos _ (by norm_num)
  omega

theorem setupBody_inv {σ : Type} (Q : Nat → Prop) (next : σ → Nat → Nat → Int × σ)
    (hQ : ∀ r, Q (toU32 (next r 0 (UINT_MAX / n)).1)) (i : Nat) (s : Setup σ)
    (hi : i < n) (h : SetupInv Q n i s) : SetupInv Q n (i + 1) (setupBody next n i s) := by
  obtain ⟨h1, h2, h3, h4⟩ := h
  have hi2 : i < s.as.length := by omega
  refine ⟨?_, ?_, ?_, ?_⟩
  · simp [setupBody, h1]
  · simp only [setupBody]
    rw [getD_set_self _ _ _ hi2, sum_set_of_zero _ _ _ hi2 (h3 i (le_refl i)), h2]
    unfold addU32
    omega
  · intro j hj
    simp only [setupBody]
    rw [getD_set_other _ _ _ _ (by omega)]
    exact h3 j (by omega)
  · intro j
    simp only [setupBody]
    by_cases hij : i = j
    · subst hij
      rw [getD_set_self _ _ _ hi2]
      exact hQ _
    · rw [getD_set_other _ _ _ _ hij]
      exact h4 j

theorem setup_foldl_inv {σ : Type} (Q : Nat → Prop) (next : σ → Nat → Nat → Int × σ)
    (seed : σ) (n : Nat) (hQ0 : Q 0) (hQ : ∀ r, Q (toU32 (next r 0 (UINT_MAX / n)).1))
    (i : Nat) (hi : i ≤ n) :
    SetupInv Q n i ((List.range i).foldl (fun a j => setupBody next n j a)
      { as := List.replicate n 0, r := seed, reference_sum := 0 }) := by
  induction i with
  | zero =>
    refine ⟨by simp, by simp, ?_, ?_⟩
    · intro j _
      simp [List.getD_eq_getElem?_getD, List.getElem?_replicate]
      split <;> simp
    · intro j
      have e : (List.replicate n 0).getD j 0 = 0 := by
        simp [List.getD_eq_getElem?_getD, List.getElem?_replicate]
        split <;> simp
      simpa [e] using hQ0
  | succ i ih =>
    rw [List.range_succ, List.foldl_append]
    exact setupBody_inv Q next hQ i _ (by omega) (ih (by omega))

theorem mem_of_getD (as : List Nat) (Q : Nat → Prop) (h : ∀ j, Q (as.getD j 0)) :
    ∀ x ∈ as, Q x := by
  intro x hx
  obtain ⟨j, hj, rfl⟩ := List.getElem_of_mem hx
  have e := h j
  simpa [List.getD_eq_getElem?_getD, List.getElem?_eq_getElem hj] using e

/-- The set-up succeeds for `n < 2 ^ 31` and leaves `n` elements, each with
property `Q`, whose wrap-around sum is `reference_sum`. -/
theorem setup_spec_of {σ : Type} (Q : Nat → Prop) (next : σ → Nat → Nat → Int × σ) (seed : σ)
    (n : Nat) (hn : n < 2 ^ 31) (hQ0 : Q 0)
    (hQ : ∀ r, Q (toU32 (next r 0 (UINT_MAX / n)).1)) :
    ∃ s, setup next seed n = .ok s ∧ s.as.length = n ∧
      s.reference_sum = s.as.sum % 2 ^ 32 ∧ ∀ x ∈ s.as, Q x := by
  have inv := setup_foldl_inv Q next seed n hQ0 hQ n (le_refl n)
  exact ⟨_, forInt_ok n _ _ hn, inv.length_eq, inv.ref_eq, mem_of_getD _ Q inv.elems⟩

theorem setup_spec {σ : Type} (next : σ → Nat → Nat → Int × σ) (seed : σ) (n : Nat)
    (hn : n < 2 ^ 31) :
    ∃ s, setup next seed n = .ok s ∧ s.as.length = n ∧
      s.reference_sum = s.as.sum % 2 ^ 32 ∧ ∀ x ∈ s.as, x < 2 ^ 32 :=
  setup_spec_of (fun x => x < 2 ^ 32) next seed n hn (by norm_num) (fun _ => toU32_lt _)

/-! ## Lemmas on the benchmarking loop -/

theorem forIters_all_ok (B : Int) (body : Nat → World → Outcome) (step : Nat → World → World) :
    ∀ (m i : Nat) (w : World), (B - i).toNat = m →
      (∀ j w, i ≤ j → (j : Int) < B → body j w = ⟨step j w, .ok ()⟩) →
      forIters B body i w = ⟨(List.range' i m).foldl (fun w j => step j w) w, .ok ()⟩ := by
  intro m
  induction m with
  | zero =>
    intro i w hm _
    rw [forIters]
    have : ¬ (i : Int) < B := by omega
    simp [this]
  | succ m ih =>
    intro i w hm hbody
    rw [forIters]
    have h1 : (i : Int) < B := by omega
    simp only [h1, if_true]
    rw [hbody i w (le_refl i) h1]
    simp only [Outcome.andThen]
    rw [ih (i + 1) (step i w) (by push_cast; omega)
      (fun j w hj hjB => hbody j w (by omega) hjB)]
    simp [List.range'_succ]

theorem forIters_fail (B : Int) (body : Nat → World → Outcome) (step : Nat → World → World) :
    ∀ (d i : Nat) (w : World), ((i + d : Nat) : Int) < B →
      (∀ j w, i ≤ j → j < i + d → body j w = ⟨step j w, .ok ()⟩) →
      (∀ w, ∃ f, (body (i + d) w).result = .error f) →
      forIters B body i w = body (i + d) ((List.range' i d).foldl (fun w j => step j w) w) := by
  intro d
  induction d with
  | zero =>
    intro i w hB _ hfail
    rw [forIters]
    have h1 : (i : Int) < B := by simpa using hB
    obtain ⟨f, hf⟩ := hfail w
    simp only [h1, if_true, Nat.add_zero, List.range'_zero, List.foldl_nil]
    simp only [Nat.add_zero] at hf
    simp [Outcome.andThen, hf]
  | succ d ih =>
    intro i w hB hbody hfail
    rw [forIters]
    have h1 : (i : Int) < B := by push_cast at hB; omega
    simp only [h1, if_true]
    rw [hbody i w (le_refl i) (by omega)]
    simp only [Outcome.andThen]
    have e : i + (d + 1) = i + 1 + d := by omega
    rw [e] at hB hfail ⊢
    rw [ih (i + 1) (step i w) hB (fun j w hj hjd => hbody j w (by omega) (by omega)) hfail]
    simp [List.range'_succ]

theorem foldl_emit (e : Nat → Event) (l : List Nat) (w : World) :
    l.foldl (fun w j => w.emit (e j)) w = { w with trace := w.trace ++ l.map e } := by
  induction l generalizing w with
  | nil => simp
  | cons x xs ih =>
    simp only [List.foldl_cons, ih, List.map_cons]
    simp [World.emit]

/-- The "Pure CPU" block never raises when `reference_sum` is the wrap-around
sum of `as`: it leaves one `cpu` event per iteration and its report. -/
theorem cpuBlock_eq (B : Int) (as : List Nat) (n : Nat) (hlen : as.length = n)
    (hn : n < 2 ^ 31) (w : World) :
    cpuBlock B as n (as.sum % 2 ^ 32) w =
      ⟨{ w with trace := w.trace ++ List.replicate B.toNat (.cpu (as.sum % 2 ^ 32))
            ++ [.report "CPU"] }, .ok ()⟩ := by
  unfold cpuBlock
  rw [forIters_all_ok B _ (fun _ w => w.emit (.cpu (as.sum % 2 ^ 32))) B.toNat 0 w (by simp)]
  · rw [foldl_emit]
    simp [Outcome.andThen, World.emit, List.map_const']
  · intro j w _ _
    simp [cpuIter, cpuSum_eq as n hlen hn, raiseFail]

/-! ## Lemmas on combining partial sums -/

/-- Adding the entries of `c` to `out` with wrap-around, each entry once and in
any order, gives `out + c.sum` modulo `2 ^ 32`. -/
theorem foldl_order (c order : List Nat) (out : Nat) (hperm : order.Perm (List.range c.length))
    (hout : out < 2 ^ 32) :
    order.foldl (fun s t => addU32 s (c.getD t 0)) out = (out + c.sum) % 2 ^ 32 := by
  have h1 : order.foldl (fun s t => addU32 s (c.getD t 0)) out
      = (order.map (fun t => c.getD t 0)).foldl addU32 out := by
    rw [List.foldl_map]
  have h2 : (order.map (fun t => c.getD t 0)).sum = c.sum := by
    rw [(hperm.map _).sum_eq, map_getD_range]
  rw [h1, ← Nat.mod_eq_of_lt (foldl_addU32_lt _ out hout), foldl_addU32, h2]

theorem sliceSum_add (as : List Nat) (lo a b : Nat) :
    sliceSum as lo (a + b) = sliceSum as lo a + sliceSum as (lo + a) b := by
  unfold sliceSum
  rw [List.range_add, List.map_append, List.sum_append, List.map_map]
  congr 2
  apply List.map_congr_left
  intro j _
  simp [Nat.add_assoc]

theorem sliceSum_all (as : List Nat) : sliceSum as 0 as.length = as.sum := by
  unfold sliceSum
  simp only [Nat.zero_add]
  rw [map_getD_range]

theorem chunkSum_eq (as : List Nat) (lo len : Nat) :
    chunkSum as lo len = sliceSum as lo len % 2 ^ 32 := by
  unfold chunkSum sliceSum
  rw [← foldl_addU32_zero, List.foldl_map]

theorem sum_map_mod (l : List Nat) (f : Nat → Nat) (m : Nat) :
    (l.map (fun t => f t % m)).sum % m = (l.map f).sum % m := by
  induction l with
  | nil => simp
  | cons x xs ih =>
    simp only [List.map_cons, List.sum_cons]
    rw [Nat.add_mod, ih, ← Nat.add_mod, Nat.add_mod, Nat.mod_mod, ← Nat.add_mod]

theorem sum_slices (as sizes : List Nat) (k : Nat) (hk : k ≤ sizes.length) :
    ((List.range k).map (fun t => sliceSum as (sizes.take t).sum (sizes.getD t 0))).sum
      = sliceSum as 0 (sizes.take k).sum := by
  induction k with
  | zero => simp [sliceSum]
  | succ k ih =>
    have hk2 : k < sizes.length := by omega
    rw [List.range_succ, List.map_append, List.sum_append, ih (by omega),
      List.sum_take_succ sizes k hk2, sliceSum_add]
    simp [List.getD_eq_getElem?_getD, List.getElem?_eq_getElem hk2]

theorem partialSums_sum (as sizes : List Nat) (h : sizes.sum = as.length) :
    (partialSums as sizes).sum % 2 ^ 32 = as.sum % 2 ^ 32 := by
  unfold partialSums
  have e : (fun t => chunkSum as (sizes.take t).sum (sizes.getD t 0))
      = (fun t => sliceSum as (sizes.take t).sum (sizes.getD t 0) % 2 ^ 32) := by
    funext t
    exact chunkSum_eq _ _ _
  rw [e, sum_map_mod, sum_slices as sizes sizes.length (le_refl _), List.take_length, h,
    sliceSum_all]

/-- The OpenMP reduction yields the wrap-around sum of the array under every
schedule. -/
theorem ompSum_eq (as : List Nat) (n : Nat) (hlen : as.length = n) (sched : Schedule n) :
    ompSum as sched = as.sum % 2 ^ 32 := by
  unfold ompSum
  rw [foldl_order (partialSums as sched.sizes) sched.order 0
    (by simpa [partialSums] using sched.each_once) (by norm_num)]
  rw [Nat.zero_add]
  exact partialSums_sum as sched.sizes (by rw [sched.covers, hlen])

theorem ompBlock_eq (B : Int) (as : List Nat) (n : Nat) (hlen : as.length = n)
    (sched : Nat → Schedule n) (w : World) :
    ompBlock B sched as (as.sum % 2 ^ 32) w =
      ⟨{ w with trace := w.trace ++ List.replicate B.toNat (.omp (as.sum % 2 ^ 32))
            ++ [.report "CPU OMP"] }, .ok ()⟩ := by
  unfold ompBlock
  rw [forIters_all_ok B _ (fun _ w => w.emit (.omp (as.sum % 2 ^ 32))) B.toNat 0 w (by simp)]
  · rw [foldl_emit]
    simp [Outcome.andThen, World.emit, List.map_const']
  · intro j w _ _
    simp [ompIter, ompSum_eq as n hlen, raiseFail]

/-! ## Lemmas on `runGpuKernel` -/

theorem gpuIter_pass (device : Device) (name : String) (ws : WorkSize) (as : List Nat)
    (n ref j : Nat) (w : World) (h : readback device name ws as n j = ref) :
    gpuIter device name ws as n ref j w = ⟨gpuStep device name ws as n j w, .ok ()⟩ := by
  unfold readback at h
  simp [gpuIter, raiseFail, gpuStep, readback, h]

theorem gpuIter_fail (device : Device) (name : String) (ws : WorkSize) (as : List Nat)
    (n ref j : Nat) (w : World) (h : readback device name ws as n j ≠ ref) :
    gpuIter device name ws as n ref j w =
      ⟨(gpuStep device name ws as n j w).emit
          (.cerr_fail "GPU result should be consistent!" ref (readback device name ws as n j) 51),
        .error (.runtime_error "GPU result should be consistent!")⟩ := by
  unfold readback at h
  have h' : ¬ ref = device name ws j as 0 n := fun e => h e.symm
  simp [gpuIter, raiseFail, gpuStep, readback, h', World.emit]

theorem gpuStep_trace (device : Device) (name : String) (ws : WorkSize) (as : List Nat)
    (n j : Nat) (w : World) :
    (gpuStep device name ws as n j w).trace
      = w.trace ++ [.exec name ws 0 (readback device name ws as n j)] := rfl

theorem foldl_gpuStep_trace (device : Device) (name : String) (ws : WorkSize) (as : List Nat)
    (n m : Nat) (w : World) :
    ((List.range m).foldl (fun w j => gpuStep device name ws as n j w) w).trace
      = w.trace ++ execEvents device name ws as n m := by
  induction m with
  | zero => simp [execEvents]
  | succ m ih =>
    rw [List.range_succ, List.foldl_append]
    simp only [List.foldl_cons, List.foldl_nil, gpuStep_trace, ih, execEvents, List.map_append,
      List.map_cons, List.map_nil, List.append_assoc, List.range_succ]

theorem runGpuKernel_pass (device : Device) (B : Int) (name : String) (ws : WorkSize)
    (as : List Nat) (n ref : Nat) (w : World)
    (h : ∀ k : Nat, (k : Int) < B → readback device name ws as n k = ref) :
    (runGpuKernel device B name ws as n ref w).result = .ok () ∧
    (runGpuKernel device B name ws as n ref w).world.trace
      = w.trace ++ passedRun device B.toNat as n (name, ws) := by
  unfold runGpuKernel
  rw [forIters_all_ok B _ (gpuStep device name ws as n) B.toNat 0 w (by simp)
    (fun j w _ hj => gpuIter_pass device name ws as n ref j w (h j hj))]
  rw [← List.range_eq_range']
  simp [Outcome.andThen, World.emit, foldl_gpuStep_trace, passedRun]

theorem runGpuKernel_fail (device : Device) (B : Int) (name : String) (ws : WorkSize)
    (as : List Nat) (n ref : Nat) (w : World) (k : Nat) (hk : (k : Int) < B)
    (hne : readback device name ws as n k ≠ ref)
    (hfirst : ∀ j, j < k → readback device name ws as n j = ref) :
    (runGpuKernel device B name ws as n ref w).result
      = .error (.runtime_error "GPU result should be consistent!") ∧
    (runGpuKernel device B name ws as n ref w).world.trace
      = w.trace ++ failedRun device k as n ref (name, ws) ∧
    (runGpuKernel device B name ws as n ref w).world.sum_gpu
      = readback device name ws as n k := by
  unfold runGpuKernel
  have hB : ((0 + k : Nat) : Int) < B := by simpa using hk
  have e := forIters_fail B (gpuIter device name ws as n ref) (gpuStep device name ws as n)
    k 0 w hB
    (fun j w _ hj => gpuIter_pass device name ws as n ref j w (hfirst j (by omega)))
    (fun w => ⟨_, by rw [Nat.zero_add, gpuIter_fail device name ws as n ref k w hne]⟩)
  rw [e, Nat.zero_add, gpuIter_fail device name ws as n ref k _ hne, ← List.range_eq_range']
  refine ⟨by simp [Outcome.andThen], ?_, by simp [Outcome.andThen, World.emit, gpuStep]⟩
  simp only [Outcome.andThen, World.emit, gpuStep_trace, foldl_gpuStep_trace, failedRun,
    execEvents, List.range_succ, List.map_append, List.map_cons, List.map_nil, List.append_assoc]

/-- Among the numbers below `m`, either none has property `P` or there is a
least one that has it. -/
theorem none_or_first (P : Nat → Prop) (m : Nat) :
    (∀ k, k < m → ¬ P k) ∨ ∃ k, k < m ∧ P k ∧ ∀ j, j < k → ¬ P j := by
  induction m with
  | zero => exact Or.inl (fun k hk => absurd hk (Nat.not_lt_zero k))
  | succ m ih =>
    rcases ih with h | ⟨k, hk, hP, hmin⟩
    · by_cases hm : P m
      · exact Or.inr ⟨m, Nat.lt_succ_self m, hm, h⟩
      · left
        intro k hk
        rcases Nat.lt_succ_iff_lt_or_eq.mp hk with h1 | h1
        · exact h k h1
        · rw [h1]; exact hm
    · exact Or.inr ⟨k, Nat.lt_succ_of_lt hk, hP, hmin⟩

/-! ## Lemmas on the device block of `main` -/

theorem andThen_ok (o : Outcome) (k : World → Outcome) (h : o.result = .ok ()) :
    o.andThen k = k o.world := by
  unfold Outcome.andThen
  rw [h]

theorem andThen_error (o : Outcome) (k : World → Outcome) (f : Fault)
    (h : o.result = .error f) : o.andThen k = o := by
  unfold Outcome.andThen
  rw [h]

theorem foldl_andThen_error (K : String × WorkSize → World → Outcome)
    (ls : List (String × WorkSize)) (o : Outcome) (f : Fault) (h : o.result = .error f) :
    ls.foldl (fun o l => o.andThen (K l)) o = o := by
  induction ls with
  | nil => rfl
  | cons l ls ih =>
    have e : o.andThen (K l) = o := andThen_error o _ f h
    rw [List.foldl_cons, e, ih]

theorem launches_pass (device : Device) (B : Int) (as : List Nat) (n ref : Nat)
    (ls : List (String × WorkSize))
    (h : ∀ l ∈ ls, ∀ k : Nat, (k : Int) < B → readback device l.1 l.2 as n k = ref) :
    ∀ o : Outcome, o.result = .ok () →
      (ls.foldl (fun o l => o.andThen (runGpuKernel device B l.1 l.2 as n ref)) o).result
        = .ok () ∧
      (ls.foldl (fun o l => o.andThen (runGpuKernel device B l.1 l.2 as n ref)) o).world.trace
        = o.world.trace ++ ls.flatMap (passedRun device B.toNat as n) := by
  induction ls with
  | nil =>
    intro o ho
    simp [ho]
  | cons l ls ih =>
    intro o ho
    have hl := runGpuKernel_pass device B l.1 l.2 as n ref o.world
      (h l (List.mem_cons_self l ls))
    have e : o.andThen (runGpuKernel device B l.1 l.2 as n ref)
        = runGpuKernel device B l.1 l.2 as n ref o.world := andThen_ok o _ ho
    have ih' := ih (fun l' hl' => h l' (List.mem_cons_of_mem l hl'))
      (runGpuKernel device B l.1 l.2 as n ref o.world) hl.1
    rw [List.foldl_cons, e]
    refine ⟨ih'.1, ?_⟩
    rw [ih'.2, hl.2]
    simp

theorem launches_fail (device : Device) (B : Int) (as : List Nat) (n ref : Nat)
    (pre post : List (String × WorkSize)) (l : String × WorkSize) (k : Nat)
    (hpre : ∀ l' ∈ pre, ∀ j : Nat, (j : Int) < B → readback device l'.1 l'.2 as n j = ref)
    (hk : (k : Int) < B) (hne : readback device l.1 l.2 as n k ≠ ref)
    (hfirst : ∀ j, j < k → readback device l.1 l.2 as n j = ref)
    (o : Outcome) (ho : o.result = .ok ()) :
    ((pre ++ l :: post).foldl
        (fun o l => o.andThen (runGpuKernel device B l.1 l.2 as n ref)) o).result
      = .error (.runtime_error "GPU result should be consistent!") ∧
    ((pre ++ l :: post).foldl
        (fun o l => o.andThen (runGpuKernel device B l.1 l.2 as n ref)) o).world.trace
      = o.world.trace ++ pre.flatMap (passedRun device B.toNat as n)
          ++ failedRun device k as n ref l := by
  have hp := launches_pass device B as n ref pre hpre o ho
  have hl := runGpuKernel_fail device B l.1 l.2 as n ref
    (pre.foldl (fun o l => o.andThen (runGpuKernel device B l.1 l.2 as n ref)) o).world
    k hk hne hfirst
  have e : (pre.foldl (fun o l => o.andThen (runGpuKernel device B l.1 l.2 as n ref)) o).andThen
      (runGpuKernel device B l.1 l.2 as n ref)
        = runGpuKernel device B l.1 l.2 as n ref
          (pre.foldl (fun o l => o.andThen (runGpuKernel device B l.1 l.2 as n ref)) o).world :=
    andThen_ok _ _ hp.1
  rw [List.foldl_append, List.foldl_cons, e, foldl_andThen_error _ post _ _ hl.1]
  exact ⟨hl.1, by rw [hl.2.1, hp.2]⟩

/-- In a list of launches, either every iteration of every launch reads back
`ref`, or there is a first launch with a first mismatching iteration. -/
theorem launches_none_or_first (device : Device) (B : Int) (as : List Nat) (n ref : Nat)
    (ls : List (String × WorkSize)) :
    (∀ l ∈ ls, ∀ k : Nat, (k : Int) < B → readback device l.1 l.2 as n k = ref) ∨
    ∃ (pre : List (String × WorkSize)) (l : String × WorkSize)
        (post : List (String × WorkSize)) (k : Nat), ls = pre ++ l :: post ∧
      (∀ l' ∈ pre, ∀ j : Nat, (j : Int) < B → readback device l'.1 l'.2 as n j = ref) ∧
      (k : Int) < B ∧ readback device l.1 l.2 as n k ≠ ref ∧
      ∀ j, j < k → readback device l.1 l.2 as n j = ref := by
  induction ls with
  | nil => left; simp
  | cons l ls ih =>
    rcases none_or_first (fun k => readback device l.1 l.2 as n k ≠ ref) B.toNat with h | h
    · rcases ih with h2 | ⟨pre, l2, post, k, e, h3, h4, h5, h6⟩
      · left
        intro l' hl' k hk
        rcases List.mem_cons.mp hl' with e | e
        · subst e
          exact not_not.mp (h k (by omega))
        · exact h2 l' e k hk
      · right
        refine ⟨l :: pre, l2, post, k, by simp [e], ?_, h4, h5, h6⟩
        intro l' hl' j hj
        rcases List.mem_cons.mp hl' with e' | e'
        · subst e'
          exact not_not.mp (h j (by omega))
        · exact h3 l' e' j hj
    · obtain ⟨k, hk, hne, hmin⟩ := h
      right
      exact ⟨[], l, ls, k, rfl, by simp, by omega, hne, fun j hj => not_not.mp (hmin j hj)⟩

/-! ## Lemmas on the reduction strategies -/

theorem getD_beyond (as : List Nat) (j : Nat) (h : as.length ≤ j) : as.getD j 0 = 0 := by
  simp [List.getD_eq_getElem?_getD, List.getElem?_eq_none h]

theorem sliceSum_zero (as : List Nat) (lo len : Nat) (h : as.length ≤ lo) :
    sliceSum as lo len = 0 := by
  unfold sliceSum
  apply List.sum_eq_zero
  intro x hx
  obtain ⟨j, _, rfl⟩ := List.mem_map.mp hx
  exact getD_beyond as _ (by omega)

theorem sliceSum_beyond (as : List Nat) (m : Nat) (h : as.length ≤ m) :
    sliceSum as 0 m = as.sum := by
  obtain ⟨d, rfl⟩ := Nat.exists_eq_add_of_le h
  rw [sliceSum_add, Nat.zero_add, sliceSum_zero as _ d (le_refl _), sliceSum_all, Nat.add_zero]

theorem sliceSum_congr (as bs : List Nat) (lo len : Nat)
    (h : ∀ j, j < len → as.getD (lo + j) 0 = bs.getD (lo + j) 0) :
    sliceSum as lo len = sliceSum bs lo len := by
  unfold sliceSum
  congr 1
  apply List.map_congr_left
  intro j hj
  exact h j (List.mem_range.mp hj)

theorem sliceSum_take (as : List Nat) (m : Nat) : sliceSum as 0 m = (as.take m).sum := by
  rw [← sliceSum_beyond (as.take m) m (by simp)]
  apply sliceSum_congr
  intro j hj
  simp [List.getD_eq_getElem?_getD, List.getElem?_take, hj]

theorem sum_blocks (as : List Nat) (b G : Nat) :
    ((List.range G).map (fun w => sliceSum as (w * b) b)).sum = sliceSum as 0 (G * b) := by
  induction G with
  | zero => simp [sliceSum]
  | succ G ih =>
    rw [List.range_succ, List.map_append, List.sum_append, ih, Nat.succ_mul, sliceSum_add]
    simp

theorem workerSum_cycle (as : List Nat) (W g : Nat) :
    workerSum .cycle W as g = sliceSum as (g * 64) 64 % 2 ^ 32 := by
  rw [← chunkSum_eq]
  rfl

/-- Exact sum of what worker `g` of the coalesced kernel reads in its first
`k` steps. -/
theorem workerSum_coalesced (as : List Nat) (W g : Nat) :
    workerSum .coalesced_cycle W as g
      = ((List.range 64).map (fun i => as.getD (i * W + g) 0)).sum % 2 ^ 32 := by
  rw [← foldl_addU32_zero, List.foldl_map]
  rfl

theorem sum_columns (as : List Nat) (W k : Nat) :
    ((List.range W).map
        (fun g => ((List.range k).map (fun i => as.getD (i * W + g) 0)).sum)).sum
      = sliceSum as 0 (k * W) := by
  induction k with
  | zero => simp [sliceSum]
  | succ k ih =>
    have e : (fun g => ((List.range (k + 1)).map (fun i => as.getD (i * W + g) 0)).sum)
        = (fun g => ((List.range k).map (fun i => as.getD (i * W + g) 0)).sum
            + as.getD (k * W + g) 0) := by
      funext g
      rw [List.range_succ, List.map_append, List.sum_append]
      simp
    rw [e, List.sum_map_add, ih, Nat.succ_mul, sliceSum_add, Nat.zero_add]
    rfl

theorem linearReduce_eq (buf : List Nat) : linearReduce buf = buf.sum % 2 ^ 32 :=
  foldl_addU32_zero buf

theorem treePass_length (buf : List Nat) (half : Nat) : (treePass buf half).length = half := by
  simp [treePass]

theorem treePass_sum (buf : List Nat) (half : Nat) (h : buf.length = half + half) :
    (treePass buf half).sum % 2 ^ 32 = buf.sum % 2 ^ 32 := by
  unfold treePass addU32
  rw [sum_map_mod (List.range half) (fun i => buf.getD i 0 + buf.getD (i + half) 0),
    List.sum_map_add]
  have h1 : ((List.range half).map (fun i => buf.getD i 0)).sum = sliceSum buf 0 half := by
    simp [sliceSum]
  have h2 : ((List.range half).map (fun i => buf.getD (i + half) 0)).sum
      = sliceSum buf (0 + half) half := by
    simp [sliceSum, Nat.add_comm]
  rw [h1, h2, ← sliceSum_add, ← h, sliceSum_all]

theorem treeReduce_pow (k : Nat) :
    ∀ buf : List Nat, buf.length = 2 ^ (k + 1) → treeReduce (2 ^ (k + 1)) buf = buf.sum % 2 ^ 32 := by
  induction k with
  | zero =>
    intro buf h
    match buf, h with
    | [a, b], _ =>
      rw [treeReduce]
      simp only [Nat.zero_add, pow_one, Nat.one_lt_ofNat, if_true, Nat.div_self (by norm_num : 0 < 2)]
      rw [treeReduce]
      simp [treePass, addU32]
  | succ k ih =>
    intro buf h
    rw [treeReduce]
    have h1 : 1 < 2 ^ (k + 1 + 1) := Nat.one_lt_two_pow (by omega)
    have h2 : 2 ^ (k + 1 + 1) / 2 = 2 ^ (k + 1) := by
      rw [pow_succ, Nat.mul_div_cancel _ (by norm_num : 0 < 2)]
    simp only [h1, if_true, h2]
    rw [ih _ (treePass_length _ _), treePass_sum _ _ (by rw [h, pow_succ]; omega)]

theorem groupBuffer_eq (as : List Nat) (n w b : Nat) (hlen : as.length = n) :
    groupBuffer ⟨b, n⟩ as n w = (List.range b).map (fun lid => as.getD (w * b + lid) 0) := by
  unfold groupBuffer
  apply List.map_congr_left
  intro lid _
  by_cases h : w * b + lid < n
  · simp [h]
  · have e := getD_beyond as (w * b + lid) (by omega)
    simp only [h, and_self, if_false]
    exact e.symm

theorem groupBuffer_sum (as : List Nat) (n w b : Nat) (hlen : as.length = n) :
    (groupBuffer ⟨b, n⟩ as n w).sum = sliceSum as (w * b) b := by
  rw [groupBuffer_eq as n w b hlen]
  rfl

theorem groups_cover (n : Nat) : n ≤ groupCount ⟨128, n⟩ * 128 := by
  unfold groupCount
  simp only
  omega

theorem mem_launches (s : Strategy) (n : Nat) :
    (s.kernel_name, Strategy.work_size n s) ∈ launches n := by
  cases s <;> simp [launches, Strategy.kernel_name, Strategy.work_size]

theorem contributions_sum (s : Strategy) (as : List Nat) (n : Nat) (hlen : as.length = n) :
    (contributions s (Strategy.work_size n s) as n).sum % 2 ^ 32
      = (as.take (summedPrefix s n)).sum % 2 ^ 32 := by
  cases s with
  | global_atomic =>
    simp only [contributions, Strategy.work_size, summedPrefix]
    rw [← hlen, map_getD_range, List.take_length]
  | cycle =>
    simp only [contributions, Strategy.work_size, summedPrefix, groupingFactor]
    have e : workerSum .cycle (n / 64) as = fun g => sliceSum as (g * 64) 64 % 2 ^ 32 := by
      funext g
      exact workerSum_cycle as _ g
    rw [e, sum_map_mod, sum_blocks, sliceSum_take, Nat.mul_comm]
  | coalesced_cycle =>
    simp only [contributions, Strategy.work_size, summedPrefix, groupingFactor]
    have e : workerSum .coalesced_cycle (n / 64) as
        = fun g => ((List.range 64).map (fun i => as.getD (i * (n / 64) + g) 0)).sum % 2 ^ 32 := by
      funext g
      exact workerSum_coalesced as _ g
    rw [e, sum_map_mod, sum_columns, sliceSum_take]
  | local_buffer =>
    simp only [contributions, Strategy.work_size, summedPrefix]
    have e : (fun w => linearReduce (groupBuffer ⟨128, n⟩ as n w))
        = fun w => sliceSum as (w * 128) 128 % 2 ^ 32 := by
      funext w
      rw [linearReduce_eq, groupBuffer_sum as n w 128 hlen]
    rw [e, sum_map_mod, sum_blocks, sliceSum_beyond as _ (by rw [hlen]; exact groups_cover n),
      ← hlen, List.take_length]
  | tree =>
    simp only [contributions, Strategy.work_size, summedPrefix]
    have e : (fun w => treeReduce 128 (groupBuffer ⟨128, n⟩ as n w))
        = fun w => sliceSum as (w * 128) 128 % 2 ^ 32 := by
      funext w
      have h := treeReduce_pow 6 (groupBuffer ⟨128, n⟩ as n w) (by simp [groupBuffer])
      rw [groupBuffer_sum as n w 128 hlen] at h
      exact h
    rw [e, sum_map_mod, sum_blocks, sliceSum_beyond as _ (by rw [hlen]; exact groups_cover n),
      ← hlen, List.take_length]

/-- Started on a zeroed output, a strategy launched with the work size of
`main` leaves the wrap-around sum of the elements its workers read, whatever
the order of the atomic additions. -/
theorem strategyResult_eq (s : Strategy) (as : List Nat) (n : Nat) (order : List Nat)
    (hlen : as.length = n) (h : Interleaving s (Strategy.work_size n s) as n order) :
    strategyResult s (Strategy.work_size n s) as 0 n order
      = (as.take (summedPrefix s n)).sum % 2 ^ 32 := by
  unfold strategyResult
  rw [foldl_order _ order 0 h (by norm_num), Nat.zero_add, contributions_sum s as n hlen]

theorem readsAt_lt (s : Strategy) (W j : Nat) (p : Nat × Nat) (h : ReadsAt s W j p) :
    j < groupingFactor * W := by
  obtain ⟨h1, h2, h3⟩ := h
  unfold groupingFactor at *
  cases s <;> simp only [readIndex, groupingFactor] at h3
  case coalesced_cycle =>
    have : p.2 * W + p.1 < (p.2 + 1) * W := by rw [Nat.succ_mul]; omega
    have : (p.2 + 1) * W ≤ 64 * W := Nat.mul_le_mul_right W (by omega)
    omega
  all_goals omega

theorem readsAt_unique (s : Strategy) (W j : Nat) (p q : Nat × Nat) (hp : ReadsAt s W j p)
    (hq : ReadsAt s W j q) : p = q := by
  obtain ⟨p1, p2, p3⟩ := hp
  obtain ⟨q1, q2, q3⟩ := hq
  unfold groupingFactor at *
  cases s <;> simp only [readIndex, groupingFactor] at p3 q3
  case coalesced_cycle =>
    have hW : 0 < W := by omega
    have a1 : (p.2 * W + p.1) % W = p.1 := by
      rw [Nat.add_comm, Nat.add_mul_mod_self_right, Nat.mod_eq_of_lt p1]
    have a2 : (q.2 * W + q.1) % W = q.1 := by
      rw [Nat.add_comm, Nat.add_mul_mod_self_right, Nat.mod_eq_of_lt q1]
    have b1 : (p.2 * W + p.1) / W = p.2 := by
      rw [Nat.add_comm, Nat.add_mul_div_right _ _ hW, Nat.div_eq_of_lt p1, Nat.zero_add]
    have b2 : (q.2 * W + q.1) / W = q.2 := by
      rw [Nat.add_comm, Nat.add_mul_div_right _ _ hW, Nat.div_eq_of_lt q1, Nat.zero_add]
    rw [p3] at a1 b1
    rw [q3] at a2 b2
    exact Prod.ext (a1.symm.trans a2) (b1.symm.trans b2)
  all_goals exact Prod.ext (by omega) (by omega)

theorem readsAt_exists (s : Strategy) (W j : Nat) (h : j < groupingFactor * W) :
    ∃ p, ReadsAt s W j p := by
  unfold groupingFactor at h
  cases s
  case coalesced_cycle =>
    have hW : 0 < W := by omega
    refine ⟨(j % W, j / W), Nat.mod_lt j hW, ?_, ?_⟩
    · exact (Nat.div_lt_iff_lt_mul hW).mpr h
    · simp only [readIndex]
      exact Nat.div_add_mod' j W
  all_goals
    refine ⟨(j / 64, j % 64), ?_, ?_, ?_⟩
    · simp only
      omega
    · simp only [groupingFactor]
      omega
    · simp only [readIndex, groupingFactor]
      omega

/-! ## Lemmas on `main` -/

theorem execCount_append (a b : List Event) : execCount (a ++ b) = execCount a + execCount b := by
  simp [execCount]

theorem execCount_execEvents (device : Device) (name : String) (ws : WorkSize) (as : List Nat)
    (n m : Nat) : execCount (execEvents device name ws as n m) = m := by
  induction m with
  | zero => simp [execCount, execEvents]
  | succ m ih =>
    unfold execEvents at ih ⊢
    rw [List.range_succ, List.map_append, execCount_append, ih]
    simp [execCount, Event.isExec]

theorem catchHandler_result (o : Outcome) : (catchHandler o).result = o.result := by
  unfold catchHandler
  split
  · rename_i h
    simp [h]
  · rfl

theorem catchHandler_trace_error (o : Outcome) (m : String)
    (h : o.result = .error (.runtime_error m)) :
    (catchHandler o).world.trace = o.world.trace ++ [.cerr_what m] := by
  unfold catchHandler
  rw [h]
  rfl

theorem catchHandler_ok (o : Outcome) (h : o.result = .ok ()) : catchHandler o = o := by
  unfold catchHandler
  rw [h]

theorem mainTry_eq {σ : Type} (B : Int) (n : Nat) (env : Env σ n) (s : Setup σ)
    (hs : setup env.next env.seed n = .ok s) (hlen : s.as.length = n)
    (href : s.reference_sum = s.as.sum % 2 ^ 32) (hn : n < 2 ^ 31) :
    mainTry B n env =
      (launches n).foldl
        (fun o l => o.andThen (runGpuKernel env.device B l.1 l.2 s.as n s.reference_sum))
        ⟨⟨env.sum_gpu0, hostTrace B.toNat s.reference_sum⟩, .ok ()⟩ := by
  unfold mainTry
  rw [hs]
  simp only
  rw [href, cpuBlock_eq B s.as n hlen hn]
  simp only [Outcome.andThen]
  rw [ompBlock_eq B s.as n hlen]
  simp only [gpuBlock, hostTrace, List.nil_append, List.append_assoc]
  rfl

theorem execCount_passedRun (device : Device) (m : Nat) (as : List Nat) (n : Nat)
    (l : String × WorkSize) : execCount (passedRun device m as n l) = m := by
  unfold passedRun
  rw [execCount_append, execCount_execEvents]
  simp [execCount, Event.isExec]

theorem execCount_failedRun (device : Device) (k : Nat) (as : List Nat) (n ref : Nat)
    (l : String × WorkSize) : execCount (failedRun device k as n ref l) = k + 1 := by
  unfold failedRun
  rw [execCount_append, execCount_execEvents]
  simp [execCount, Event.isExec]

/-- The events that a `runGpuKernel` call appends: some `exec` events of this
kernel, each started on `0`, then one event that is not an `exec`. -/
theorem runGpuKernel_trace_shape (device : Device) (B : Int) (name : String) (ws : WorkSize)
    (as : List Nat) (n ref : Nat) (w : World) :
    ∃ m last, (runGpuKernel device B name ws as n ref w).world.trace
        = w.trace ++ (execEvents device name ws as n m ++ [last]) ∧ last.isExec = false := by
  rcases none_or_first (fun k => readback device name ws as n k ≠ ref) B.toNat with h | h
  · have hp := runGpuKernel_pass device B name ws as n ref w
      (fun k hk => not_not.mp (h k (by omega)))
    exact ⟨B.toNat, _, hp.2, rfl⟩
  · obtain ⟨k, hk, hne, hmin⟩ := h
    have hf := runGpuKernel_fail device B name ws as n ref w k (by omega) hne
      (fun j hj => not_not.mp (hmin j hj))
    exact ⟨k + 1, _, hf.2.1, rfl⟩

theorem mem_execEvents (device : Device) (name : String) (ws : WorkSize) (as : List Nat)
    (n m : Nat) (e : Event) (h : e ∈ execEvents device name ws as n m) :
    ∃ j, j < m ∧ e = .exec name ws 0 (readback device name ws as n j) := by
  unfold execEvents at h
  obtain ⟨j, hj, rfl⟩ := List.mem_map.mp h
  exact ⟨j, List.mem_range.mp hj, rfl⟩

theorem sum_le_length_mul (as : List Nat) (b : Nat) (h : ∀ x ∈ as, x ≤ b) :
    as.sum ≤ as.length * b := by
  induction as with
  | nil => simp
  | cons x xs ih =>
    have h1 := h x (List.mem_cons_self x xs)
    have h2 := ih (fun y hy => h y (List.mem_cons_of_mem x hy))
    simp only [List.sum_cons, List.length_cons, Nat.succ_mul]
    omega

/-! # The claims -/

/-- C1: for every array `as` of length `n < 2^31` the sequential loop returns
`(as[0] + ... + as[n-1]) mod 2^32`; whatever the generator, the set-up succeeds
and accumulates exactly this value as `reference_sum` for the array it fills,
so the "Pure CPU" block never raises; and five elements `0xFFFFFFFF` sum to
`0xFFFFFFFB`. -/
theorem sequential_sum_is_reference (n : Nat) (hn : n < 2 ^ 31) :
    (∀ as : List Nat, as.length = n → cpuSum as n = .ok (as.sum % 2 ^ 32)) ∧
    (∀ (σ : Type) (next : σ → Nat → Nat → Int × σ) (seed : σ),
      ∃ s, setup next seed n = .ok s ∧ s.as.length = n ∧
        s.reference_sum = s.as.sum % 2 ^ 32 ∧
        cpuSum s.as n = .ok s.reference_sum ∧
        ∀ (B : Int) (w : World), (cpuBlock B s.as n s.reference_sum w).result = .ok ()) ∧
    cpuSum [0xFFFFFFFF, 0xFFFFFFFF, 0xFFFFFFFF, 0xFFFFFFFF, 0xFFFFFFFF] 5 = .ok 0xFFFFFFFB := by
  refine ⟨fun as hlen => cpuSum_eq as n hlen hn, ?_, ?_⟩
  · intro σ next seed
    obtain ⟨s, hs, hlen, href, _⟩ := setup_spec next seed n hn
    refine ⟨s, hs, hlen, href, ?_, ?_⟩
    · rw [href]
      exact cpuSum_eq s.as n hlen hn
    · intro B w
      rw [href, cpuBlock_eq B s.as n hlen hn]
  · rw [cpuSum_eq [0xFFFFFFFF, 0xFFFFFFFF, 0xFFFFFFFF, 0xFFFFFFFF, 0xFFFFFFFF] 5 rfl
      (by norm_num)]
    rfl

/-- At `n = 2`, the array `[0xFFFFFFFF, 7]` sums to `6`. -/
theorem sequential_sum_is_reference_witness : cpuSum [0xFFFFFFFF, 7] 2 = .ok 6 :=
  (sequential_sum_is_reference 2 (by norm_num)).1 [0xFFFFFFFF, 7] rfl

/-- C2: for every array and every schedule of the OpenMP reduction (any number
of threads, each with a possibly empty run of consecutive iterations, private
sums combined in any order) the reduction yields the wrap-around sum of the
array, which is what the sequential loop returns. -/
theorem omp_sum_is_sequential_sum (as : List Nat) (sched : Schedule as.length) :
    ompSum as sched = as.sum % 2 ^ 32 ∧
    (as.length < 2 ^ 31 → cpuSum as as.length = .ok (ompSum as sched)) := by
  have h := ompSum_eq as as.length rfl sched
  refine ⟨h, fun hn => ?_⟩
  rw [h]
  exact cpuSum_eq as as.length rfl hn

/-- Three threads, the second idle, combined in the order 2, 0, 1. -/
theorem omp_sum_is_sequential_sum_witness :
    ompSum [0xFFFFFFFF, 2, 3] (n := 3) ⟨[1, 0, 2], [2, 0, 1], rfl, by decide⟩ = 4 :=
  (omp_sum_is_sequential_sum [0xFFFFFFFF, 2, 3] ⟨[1, 0, 2], [2, 0, 1], rfl, by decide⟩).1

/-- C3: `runGpuKernel` raises exactly when some iteration below
`benchmarkingIters` reads back a sum other than `reference_sum`. It then raises
in the first such iteration `k`, after exactly `k + 1` executions of the
kernel; without a mismatch it returns normally after exactly
`benchmarkingIters` executions. -/
theorem runGpuKernel_raises_at_first_mismatch (device : Device) (B : Int) (name : String)
    (ws : WorkSize) (as : List Nat) (n ref : Nat) (w : World) :
    ((∃ f, (runGpuKernel device B name ws as n ref w).result = .error f) ↔
      ∃ k : Nat, (k : Int) < B ∧ readback device name ws as n k ≠ ref) ∧
    (∀ k : Nat, (k : Int) < B → readback device name ws as n k ≠ ref →
      (∀ j, j < k → readback device name ws as n j = ref) →
      (runGpuKernel device B name ws as n ref w).result
        = .error (.runtime_error "GPU result should be consistent!") ∧
      (runGpuKernel device B name ws as n ref w).world.trace
        = w.trace ++ failedRun device k as n ref (name, ws) ∧
      execCount (runGpuKernel device B name ws as n ref w).world.trace
        = execCount w.trace + (k + 1)) ∧
    ((∀ k : Nat, (k : Int) < B → readback device name ws as n k = ref) →
      (runGpuKernel device B name ws as n ref w).result = .ok () ∧
      (runGpuKernel device B name ws as n ref w).world.trace
        = w.trace ++ passedRun device B.toNat as n (name, ws) ∧
      execCount (runGpuKernel device B name ws as n ref w).world.trace
        = execCount w.trace + B.toNat) := by
  have hfail : ∀ k : Nat, (k : Int) < B → readback device name ws as n k ≠ ref →
      (∀ j, j < k → readback device name ws as n j = ref) →
      (runGpuKernel device B name ws as n ref w).result
        = .error (.runtime_error "GPU result should be consistent!") ∧
      (runGpuKernel device B name ws as n ref w).world.trace
        = w.trace ++ failedRun device k as n ref (name, ws) ∧
      execCount (runGpuKernel device B name ws as n ref w).world.trace
        = execCount w.trace + (k + 1) := by
    intro k hk hne hfirst
    have hf := runGpuKernel_fail device B name ws as n ref w k hk hne hfirst
    exact ⟨hf.1, hf.2.1, by rw [hf.2.1, execCount_append, execCount_failedRun]⟩
  have hpass : (∀ k : Nat, (k : Int) < B → readback device name ws as n k = ref) →
      (runGpuKernel device B name ws as n ref w).result = .ok () ∧
      (runGpuKernel device B name ws as n ref w).world.trace
        = w.trace ++ passedRun device B.toNat as n (name, ws) ∧
      execCount (runGpuKernel device B name ws as n ref w).world.trace
        = execCount w.trace + B.toNat := by
    intro h
    have hp := runGpuKernel_pass device B name ws as n ref w h
    exact ⟨hp.1, hp.2, by rw [hp.2, execCount_append, execCount_passedRun]⟩
  refine ⟨⟨?_, ?_⟩, hfail, hpass⟩
  · rintro ⟨f, hf⟩
    by_contra hno
    have hall : ∀ k : Nat, (k : Int) < B → readback device name ws as n k = ref := by
      intro k hk
      by_contra hne
      exact hno ⟨k, hk, hne⟩
    rw [(hpass hall).1] at hf
    cases hf
  · rintro ⟨k, hk, hne⟩
    rcases none_or_first (fun j => readback device name ws as n j ≠ ref) (k + 1) with h | h
    · exact absurd hne (h k (Nat.lt_succ_self k))
    · obtain ⟨k', hk', hne', hmin⟩ := h
      exact ⟨_, (hfail k' (by omega) hne' (fun j hj => not_not.mp (hmin j hj))).1⟩

/-- C4: every iteration of `runGpuKernel` executes the kernel with `sum_gpu`
holding `0`, whatever the buffer held before; so when the kernel's answer does
not depend on how often it has run, every iteration of a call reads back the
same sum as the first. -/
theorem sum_gpu_zero_at_every_exec (device : Device) (B : Int) (name : String)
    (ws : WorkSize) (as : List Nat) (n ref : Nat) (w : World) :
    (∀ (iter : Nat) (w' : World), ∃ rest,
      (gpuIter device name ws as n ref iter w').world.trace
        = w'.trace ++ Event.exec name ws 0 (device name ws iter as 0 n) :: rest) ∧
    (∀ e ∈ (runGpuKernel device B name ws as n ref w).world.trace.drop w.trace.length,
      ∀ nm ws' before after, e = Event.exec nm ws' before after → before = 0) ∧
    ((∀ k out, device name ws k as out n = device name ws 0 as out n) →
      ∀ e ∈ (runGpuKernel device B name ws as n ref w).world.trace.drop w.trace.length,
        ∀ nm ws' before after, e = Event.exec nm ws' before after →
          after = readback device name ws as n 0) := by
  obtain ⟨m, last, htrace, hlast⟩ := runGpuKernel_trace_shape device B name ws as n ref w
  have hnew : ∀ e ∈ (runGpuKernel device B name ws as n ref w).world.trace.drop w.trace.length,
      ∀ nm ws' before after, e = Event.exec nm ws' before after →
        ∃ j, e = .exec name ws 0 (readback device name ws as n j) := by
    intro e he nm ws' before after heq
    rw [htrace, List.drop_left] at he
    rcases List.mem_append.mp he with h | h
    · obtain ⟨j, _, hj⟩ := mem_execEvents device name ws as n m e h
      exact ⟨j, hj⟩
    · rw [List.mem_singleton] at h
      rw [← h, heq] at hlast
      simp [Event.isExec] at hlast
  refine ⟨?_, ?_, ?_⟩
  · intro iter w'
    by_cases h : readback device name ws as n iter = ref
    · rw [gpuIter_pass device name ws as n ref iter w' h]
      exact ⟨[], rfl⟩
    · rw [gpuIter_fail device name ws as n ref iter w' h]
      refine ⟨[.cerr_fail "GPU result should be consistent!" ref
        (readback device name ws as n iter) 51], ?_⟩
      simp [World.emit, gpuStep_trace, readback]
  · intro e he nm ws' before after heq
    obtain ⟨j, hj⟩ := hnew e he nm ws' before after heq
    rw [heq] at hj
    injection hj with _ _ h3 _
  · intro hdet e he nm ws' before after heq
    obtain ⟨j, hj⟩ := hnew e he nm ws' before after heq
    rw [heq] at hj
    injection hj with _ _ _ h4
    rw [h4]
    exact hdet j 0

/-- C5: for `n ≥ 1`, an array of `n` values, each at most
`UINT_MAX / n`, has an exact sum of at most `UINT_MAX`, so its wrap-around sum
is its exact sum; with a generator that, given bounds `lo ≤ hi`, draws a value
in `[lo, hi]`, the set-up fills the array with such values and its
`reference_sum` is the exact sum of the array. For the `n` of `main` the bound
is `42`, which is also `2^32 / n`. -/
theorem bounded_input_sum_is_exact (n : Nat) (_hn : 1 ≤ n) :
    (∀ as : List Nat, as.length = n → (∀ x ∈ as, x ≤ UINT_MAX / n) →
      as.sum ≤ UINT_MAX ∧ as.sum % 2 ^ 32 = as.sum) ∧
    (n < 2 ^ 31 → ∀ (σ : Type) (next : σ → Nat → Nat → Int × σ) (seed : σ),
      (∀ (r : σ) (lo hi : Nat), lo ≤ hi →
        (lo : Int) ≤ (next r lo hi).1 ∧ (next r lo hi).1 ≤ (hi : Int)) →
      ∃ s, setup next seed n = .ok s ∧ s.as.length = n ∧ (∀ x ∈ s.as, x ≤ UINT_MAX / n) ∧
        s.reference_sum = s.as.sum) ∧
    UINT_MAX / n_main = 42 ∧ 2 ^ 32 / n_main = 42 := by
  have hexact : ∀ as : List Nat, as.length = n → (∀ x ∈ as, x ≤ UINT_MAX / n) →
      as.sum ≤ UINT_MAX ∧ as.sum % 2 ^ 32 = as.sum := by
    intro as hlen hb
    have h1 := sum_le_length_mul as _ hb
    have h2 : n * (UINT_MAX / n) ≤ UINT_MAX := Nat.mul_div_le _ _
    rw [hlen] at h1
    have h3 : as.sum ≤ UINT_MAX := le_trans h1 h2
    refine ⟨h3, Nat.mod_eq_of_lt ?_⟩
    unfold UINT_MAX at h3
    omega
  refine ⟨hexact, ?_, by decide, by decide⟩
  intro hn2 σ next seed hgen
  have hQ : ∀ r, toU32 (next r 0 (UINT_MAX / n)).1 ≤ UINT_MAX / n := by
    intro r
    obtain ⟨h1, h2⟩ := hgen r 0 (UINT_MAX / n) (Nat.zero_le _)
    have h3 : UINT_MAX / n ≤ UINT_MAX := Nat.div_le_self _ _
    unfold UINT_MAX at h3
    unfold toU32
    omega
  obtain ⟨s, hs, hlen, href, hb⟩ :=
    setup_spec_of (fun x => x ≤ UINT_MAX / n) next seed n hn2 (Nat.zero_le _) hQ
  exact ⟨s, hs, hlen, hb, by rw [href, (hexact s.as hlen hb).2]⟩

/-- At `n = 2`, with the generator that always draws the upper bound it is
given (`2147483647` here), the set-up succeeds and its `reference_sum` is the
exact sum of the two elements it stores. -/
theorem bounded_input_sum_is_exact_witness :
    ∃ s, setup (fun (_ : Unit) (_ hi : Nat) => ((hi : Int), ())) () 2 = .ok s ∧
      s.as.length = 2 ∧ (∀ x ∈ s.as, x ≤ UINT_MAX / 2) ∧ s.reference_sum = s.as.sum :=
  (bounded_input_sum_is_exact 2 (by norm_num)).2.1 (by norm_num) Unit
    (fun _ _ hi => ((hi : Int), ())) ()
    (fun _ lo hi h => ⟨Int.ofNat_le.mpr h, le_refl _⟩)

/-- C6, as stated, fails: for `N = 8193` the dispatcher starts
`8193 / 64 = 128` workers, and index `8192` of the array is read by no worker
in no step of the strided cycle kernel. -/
theorem cycle_skips_index_8192 :
    8192 < 8193 ∧ (Strategy.work_size 8193 .cycle).workItems = 128 ∧
      ¬ ∃ p, ReadsAt .cycle (Strategy.work_size 8193 .cycle).workItems 8192 p := by
  refine ⟨by norm_num, by decide, ?_⟩
  rintro ⟨p, hp⟩
  have h := readsAt_lt _ _ _ p hp
  simp [Strategy.work_size, groupingFactor] at h

/-- C6, amended: for the two cycle strategies with `N / 64` workers, no index
is read twice, every index below `64 * (N / 64)` is read exactly once (by one
worker, in one step), and so is every index below `N` when 64 divides `N`. -/
theorem cycle_reads_prefix_exactly_once (s : Strategy)
    (hs : s = .cycle ∨ s = .coalesced_cycle) (N j : Nat) :
    (s.kernel_name, Strategy.work_size N s) ∈ launches N ∧
    (Strategy.work_size N s).workItems = N / groupingFactor ∧
    (∀ p q, ReadsAt s (N / groupingFactor) j p → ReadsAt s (N / groupingFactor) j q → p = q) ∧
    (j < groupingFactor * (N / groupingFactor) → ∃! p, ReadsAt s (N / groupingFactor) j p) ∧
    (groupingFactor ∣ N → j < N → ∃! p, ReadsAt s (N / groupingFactor) j p) := by
  have hex : j < groupingFactor * (N / groupingFactor) →
      ∃! p, ReadsAt s (N / groupingFactor) j p := by
    intro hj
    obtain ⟨p, hp⟩ := readsAt_exists s _ j hj
    exact ⟨p, hp, fun q hq => readsAt_unique s _ j q p hq hp⟩
  refine ⟨mem_launches s N, ?_, fun p q hp hq => readsAt_unique s _ j p q hp hq, hex, ?_⟩
  · rcases hs with rfl | rfl <;> rfl
  · intro hdvd hj
    apply hex
    rw [Nat.mul_div_cancel' hdvd]
    exact hj

/-- At `N = 128`, index `100` is read exactly once by the strided kernel. -/
theorem cycle_reads_prefix_exactly_once_witness :
    ∃! p, ReadsAt .cycle (128 / groupingFactor) 100 p :=
  (cycle_reads_prefix_exactly_once .cycle (Or.inl rfl) 128 100).2.2.2.1 (by decide)

/-- C7, as stated, fails: for the one-element array `[1]` the strided cycle
kernel gets `1 / 64 = 0` workers, its only interleaving is the empty one, and
the output stays `0`, while the sequential loop returns `1`. -/
theorem single_element_cycle_leaves_zero :
    (Strategy.work_size 1 .cycle).workItems = 0 ∧
    Interleaving .cycle (Strategy.work_size 1 .cycle) [1] 1 [] ∧
    strategyResult .cycle (Strategy.work_size 1 .cycle) [1] 0 1 [] = 0 ∧
    cpuSum [1] 1 = .ok 1 := by
  refine ⟨by decide, ?_, rfl, ?_⟩
  · simp [Interleaving, contributions, Strategy.work_size]
  · rw [cpuSum_eq [1] 1 rfl (by norm_num)]
    rfl

/-- C7, amended: for `N = 1` and every `unsigned int` value `v`, the
sequential loop, the OpenMP reduction and the global-atomic, local-buffer and
tree strategies (with the work sizes of `main`, under every order of the
atomic additions) yield `v`; the two cycle strategies get `0` workers and
leave the zeroed output at `0`. -/
theorem single_element_results (v : Nat) (hv : v < 2 ^ 32) :
    cpuSum [v] 1 = .ok v ∧
    (∀ sched : Schedule 1, ompSum [v] sched = v) ∧
    (∀ (s : Strategy) (order : List Nat),
      s = .global_atomic ∨ s = .local_buffer ∨ s = .tree →
      Interleaving s (Strategy.work_size 1 s) [v] 1 order →
      (s.kernel_name, Strategy.work_size 1 s) ∈ launches 1 ∧
        strategyResult s (Strategy.work_size 1 s) [v] 0 1 order = v) ∧
    (∀ (s : Strategy) (order : List Nat),
      s = .cycle ∨ s = .coalesced_cycle →
      Interleaving s (Strategy.work_size 1 s) [v] 1 order →
      (s.kernel_name, Strategy.work_size 1 s) ∈ launches 1 ∧
        (Strategy.work_size 1 s).workItems = 0 ∧
        strategyResult s (Strategy.work_size 1 s) [v] 0 1 order = 0) := by
  have hmod : [v].sum % 2 ^ 32 = v := by
    simp only [List.sum_cons, List.sum_nil, Nat.add_zero]
    exact Nat.mod_eq_of_lt hv
  refine ⟨?_, ?_, ?_, ?_⟩
  · rw [cpuSum_eq [v] 1 rfl (by norm_num), hmod]
  · intro sched
    rw [ompSum_eq [v] 1 rfl sched, hmod]
  · intro s order hs hord
    refine ⟨mem_launches s 1, ?_⟩
    rw [strategyResult_eq s [v] 1 order rfl hord]
    rcases hs with rfl | rfl | rfl <;> simpa [summedPrefix] using hmod
  · intro s order hs hord
    refine ⟨mem_launches s 1, ?_⟩
    rw [strategyResult_eq s [v] 1 order rfl hord]
    rcases hs with rfl | rfl <;> exact ⟨rfl, rfl⟩

/-- For `v = 7` the tree strategy, with its single group, leaves `7`. -/
theorem single_element_results_witness :
    strategyResult .tree (Strategy.work_size 1 .tree) [7] 0 1 [0] = 7 :=
  ((single_element_results 7 (by norm_num)).2.2.1 .tree [0] (Or.inr (Or.inr rfl))
    (by
      unfold Interleaving
      simp only [contributions, Strategy.work_size, groupCount, List.length_map,
        List.length_range]
      exact List.Perm.refl _)).2

/-- C8, as stated, fails: for the array of `8193` elements that is `0`
everywhere except for a final `1`, the strided cycle kernel with its
`8193 / 64 = 128` workers leaves `0` when the atomic additions arrive in
worker order, while the sequential loop returns `1`. -/
theorem cycle_misses_last_of_8193 :
    Interleaving .cycle (Strategy.work_size 8193 .cycle) (List.replicate 8192 0 ++ [1]) 8193
      (List.range 128) ∧
    strategyResult .cycle (Strategy.work_size 8193 .cycle) (List.replicate 8192 0 ++ [1]) 0 8193
      (List.range 128) = 0 ∧
    cpuSum (List.replicate 8192 0 ++ [1]) 8193 = .ok 1 := by
  have hlen : (List.replicate 8192 0 ++ [1]).length = 8193 := by
    rw [List.length_append, List.length_replicate]
    rfl
  have hsum : (List.replicate 8192 0).sum = 0 := by
    rw [List.sum_replicate, smul_zero]
  have hint : Interleaving .cycle (Strategy.work_size 8193 .cycle)
      (List.replicate 8192 0 ++ [1]) 8193 (List.range 128) := by
    unfold Interleaving
    simp only [contributions, Strategy.work_size, List.length_map, List.length_range]
    exact List.Perm.refl _
  refine ⟨hint, ?_, ?_⟩
  · rw [strategyResult_eq .cycle _ 8193 _ hlen hint]
    have e : summedPrefix .cycle 8193 = 8192 := by decide
    rw [e, List.take_left' (List.length_replicate 8192 0), hsum]
    rfl
  · rw [cpuSum_eq _ 8193 hlen (by norm_num), List.sum_append, hsum]
    rfl

/-- C8, amended: started on a zeroed output with the work size of `main`, each
of the five strategies leaves, under every order of its atomic additions, the
wrap-around sum of the array elements its workers read: the whole array for
global-atomic, local-buffer and tree, the first `64 * (N / 64)` elements for
the two cycle strategies. This is the sequential result for the first three
strategies, and for all five when 64 divides `N`. -/
theorem strategies_leave_sum_of_what_they_read (s : Strategy) (as : List Nat)
    (order : List Nat)
    (h : Interleaving s (Strategy.work_size as.length s) as as.length order) :
    (s.kernel_name, Strategy.work_size as.length s) ∈ launches as.length ∧
    strategyResult s (Strategy.work_size as.length s) as 0 as.length order
      = (as.take (summedPrefix s as.length)).sum % 2 ^ 32 ∧
    (s = .global_atomic ∨ s = .local_buffer ∨ s = .tree ∨ groupingFactor ∣ as.length →
      strategyResult s (Strategy.work_size as.length s) as 0 as.length order
        = as.sum % 2 ^ 32 ∧
      (as.length < 2 ^ 31 → cpuSum as as.length
        = .ok (strategyResult s (Strategy.work_size as.length s) as 0 as.length order))) := by
  have h1 := strategyResult_eq s as as.length order rfl h
  refine ⟨mem_launches s as.length, h1, fun hs => ?_⟩
  have h2 : summedPrefix s as.length = as.length := by
    rcases hs with rfl | rfl | rfl | hdvd
    · rfl
    · rfl
    · rfl
    · cases s <;> simp only [summedPrefix] <;> exact Nat.mul_div_cancel' hdvd
  rw [h2, List.take_length] at h1
  refine ⟨h1, fun hn => ?_⟩
  rw [h1]
  exact cpuSum_eq as as.length rfl hn

/-- Three elements whose exact sum exceeds `2 ^ 32`: the tree strategy, with
its single group, leaves the wrap-around sum `4`. -/
theorem strategies_leave_sum_of_what_they_read_witness :
    strategyResult .tree (Strategy.work_size 3 .tree) [0xFFFFFFFF, 2, 3] 0 3 [0] = 4 :=
  ((strategies_leave_sum_of_what_they_read .tree [0xFFFFFFFF, 2, 3] [0]
    (by
      unfold Interleaving
      simp only [contributions, Strategy.work_size, groupCount, List.length_map,
        List.length_range]
      exact List.Perm.refl _)).2.2
    (Or.inr (Or.inr (Or.inl rfl)))).1

/-- C9: for `n < 2^31` the set-up succeeds, and `main` ends with a failure
exactly when some check of some runner (sequential, OpenMP, or one of the five
kernel launches) sees a sum other than `reference_sum`. The handler passes the
failure on unchanged. When the first mismatch is in iteration `k` of launch
`l`, the run consists of the two host blocks, the complete runs of the launches
before `l`, the `k + 1` executions of `l` and the two `std::cerr` lines, and
nothing else; without a mismatch `main` returns after all five complete runs.
The function `main` itself is the case `benchmarkingIters = 10`,
`n = 100*1000*1000`, which is below `2^31`. -/
theorem main_fails_iff_check_fails {σ : Type} (B : Int) (n : Nat) (env : Env σ n)
    (hn : n < 2 ^ 31) :
    ∃ s, setup env.next env.seed n = .ok s ∧ s.reference_sum = s.as.sum % 2 ^ 32 ∧
      (exitsZero (mainWith B n env) = false ↔
        (∃ k : Nat, (k : Int) < B ∧ cpuSum s.as n ≠ .ok s.reference_sum) ∨
        (∃ k : Nat, (k : Int) < B ∧ ompSum s.as (env.sched k) ≠ s.reference_sum) ∨
        (∃ l ∈ launches n, ∃ k : Nat, (k : Int) < B ∧
          readback env.device l.1 l.2 s.as n k ≠ s.reference_sum)) ∧
      (mainWith B n env).result = (mainTry B n env).result ∧
      (∀ (pre : List (String × WorkSize)) (l : String × WorkSize)
          (post : List (String × WorkSize)) (k : Nat),
        launches n = pre ++ l :: post →
        (∀ l' ∈ pre, ∀ j : Nat, (j : Int) < B →
          readback env.device l'.1 l'.2 s.as n j = s.reference_sum) →
        (k : Int) < B → readback env.device l.1 l.2 s.as n k ≠ s.reference_sum →
        (∀ j, j < k → readback env.device l.1 l.2 s.as n j = s.reference_sum) →
        (mainWith B n env).result
          = .error (.runtime_error "GPU result should be consistent!") ∧
        (mainWith B n env).world.trace
          = hostTrace B.toNat s.reference_sum
              ++ pre.flatMap (passedRun env.device B.toNat s.as n)
              ++ failedRun env.device k s.as n s.reference_sum l
              ++ [.cerr_what "GPU result should be consistent!"]) ∧
      ((∀ l ∈ launches n, ∀ k : Nat, (k : Int) < B →
          readback env.device l.1 l.2 s.as n k = s.reference_sum) →
        (mainWith B n env).result = .ok () ∧ exitsZero (mainWith B n env) = true ∧
        (mainWith B n env).world.trace
          = hostTrace B.toNat s.reference_sum
              ++ (launches n).flatMap (passedRun env.device B.toNat s.as n)) ∧
      n_main < 2 ^ 31 ∧ ∀ env' : Env σ n_main, main env' = mainWith 10 n_main env' := by
  obtain ⟨s, hs, hlen, href, _⟩ := setup_spec env.next env.seed n hn
  have hmain := mainTry_eq B n env s hs hlen href hn
  have hfail : ∀ (pre : List (String × WorkSize)) (l : String × WorkSize)
      (post : List (String × WorkSize)) (k : Nat),
      launches n = pre ++ l :: post →
      (∀ l' ∈ pre, ∀ j : Nat, (j : Int) < B →
        readback env.device l'.1 l'.2 s.as n j = s.reference_sum) →
      (k : Int) < B → readback env.device l.1 l.2 s.as n k ≠ s.reference_sum →
      (∀ j, j < k → readback env.device l.1 l.2 s.as n j = s.reference_sum) →
      (mainWith B n env).result
        = .error (.runtime_error "GPU result should be consistent!") ∧
      (mainWith B n env).world.trace
        = hostTrace B.toNat s.reference_sum
            ++ pre.flatMap (passedRun env.device B.toNat s.as n)
            ++ failedRun env.device k s.as n s.reference_sum l
            ++ [.cerr_what "GPU result should be consistent!"] := by
    intro pre l post k hsplit hpre hk hne hfirst
    have h := launches_fail env.device B s.as n s.reference_sum pre post l k hpre hk hne hfirst
      ⟨⟨env.sum_gpu0, hostTrace B.toNat s.reference_sum⟩, .ok ()⟩ rfl
    rw [← hsplit, ← hmain] at h
    unfold mainWith
    exact ⟨by rw [catchHandler_result, h.1], by rw [catchHandler_trace_error _ _ h.1, h.2]⟩
  have hpass : (∀ l ∈ launches n, ∀ k : Nat, (k : Int) < B →
      readback env.device l.1 l.2 s.as n k = s.reference_sum) →
      (mainWith B n env).result = .ok () ∧ exitsZero (mainWith B n env) = true ∧
      (mainWith B n env).world.trace
        = hostTrace B.toNat s.reference_sum
            ++ (launches n).flatMap (passedRun env.device B.toNat s.as n) := by
    intro hall
    have h := launches_pass env.device B s.as n s.reference_sum (launches n) hall
      ⟨⟨env.sum_gpu0, hostTrace B.toNat s.reference_sum⟩, .ok ()⟩ rfl
    rw [← hmain] at h
    unfold mainWith
    rw [catchHandler_ok _ h.1]
    exact ⟨h.1, by simp [exitsZero, h.1], h.2⟩
  refine ⟨s, hs, href, ⟨?_, ?_⟩, catchHandler_result _, hfail, hpass, by decide,
    fun _ => rfl⟩
  · intro hexit
    right; right
    by_contra hno
    have hall : ∀ l ∈ launches n, ∀ k : Nat, (k : Int) < B →
        readback env.device l.1 l.2 s.as n k = s.reference_sum := by
      intro l hl k hk
      by_contra hne
      exact hno ⟨l, hl, k, hk, hne⟩
    rw [(hpass hall).2.1] at hexit
    cases hexit
  · rintro (⟨k, _, hne⟩ | ⟨k, _, hne⟩ | ⟨l, hl, k, hk, hne⟩)
    · exact absurd (by rw [href]; exact cpuSum_eq s.as n hlen hn) hne
    · exact absurd (by rw [href]; exact ompSum_eq s.as n hlen (env.sched k)) hne
    · rcases launches_none_or_first env.device B s.as n s.reference_sum (launches n)
        with hall | ⟨pre, l2, post, k2, hsplit, hpre, hk2, hne2, hfirst⟩
      · exact absurd (hall l hl k hk) hne
      · have h := (hfail pre l2 post k2 hsplit hpre hk2 hne2 hfirst).1
        simp [exitsZero, h]

/-- With a device that never leaves an `unsigned int`, a run of one iteration
on two elements ends with a failure. -/
theorem main_fails_iff_check_fails_witness : exitsZero (mainWith 1 2 stuckEnv) = false := by
  obtain ⟨s, _, href, hiff, _⟩ := main_fails_iff_check_fails 1 2 stuckEnv (by norm_num)
  rw [hiff]
  right; right
  refine ⟨("sum_gpu_global_atomic", ⟨128, 2⟩), by simp [launches], 0, by norm_num, ?_⟩
  show 2 ^ 32 ≠ s.reference_sum
  rw [href]
  omega

/-- C10: with the `n` of `main`, both cycle kernels are launched with
`n / 64 = 1562500` work items, `64 * (n / 64) = n`, and the runs of 64 indices
of the workers `0 .. n/64 - 1` partition `[0, n)`: every index lies in the run
of exactly one worker and every run lies inside the array. -/
theorem configured_cycle_runs_partition :
    ("sum_gpu_cycle", (⟨128, 1562500⟩ : WorkSize)) ∈ launches n_main ∧
    ("sum_gpu_coalesed_cycle", (⟨128, 1562500⟩ : WorkSize)) ∈ launches n_main ∧
    n_main / 64 = 1562500 ∧ 64 * (n_main / 64) = n_main ∧ n_main % 64 = 0 ∧
    (∀ j, j < n_main → ∃! g, g < n_main / 64 ∧ 64 * g ≤ j ∧ j < 64 * g + 64) ∧
    (∀ g, g < n_main / 64 → 64 * g + 64 ≤ n_main) := by
  have e : n_main = 100000000 := by decide
  refine ⟨by simp [launches, e], by simp [launches, e], by decide, by decide, by decide, ?_, ?_⟩
  · intro j hj
    rw [e] at hj ⊢
    refine ⟨j / 64, ⟨by omega, by omega, by omega⟩, ?_⟩
    rintro g ⟨_, h2, h3⟩
    omega
  · intro g hg
    rw [e] at hg ⊢
    omega

end MainSum
